import Mathlib

set_option maxRecDepth 8000

namespace Skycfg

/- Embedding of the skycfg module loader (loadImpl and its load closure),
the default file reader (localFileReader.Resolve), the execution harness
(Config.Main) and the test harness (Test.Run, Config.Tests, Config.RunTests).
Go strings are modelled as Lean String values, except inside the resolver
path model where they are modelled as lists of characters. -/

namespace Loader

/-- Errors that can arise while loading. The constructor loadWrap models the
starlark engine wrapping the error of a failed load statement into the error
returned by ExecFile. -/
inductive Err where
  | resolveFail (name : String)
  | fetchFail (p : String)
  | cycle
  | execFail (info : String)
  | loadWrap (e : Err)
deriving DecidableEq

/-- Root cause of an error, undoing the engine wrapping of load failures. -/
def Err.rootCause : Err → Err
  | .loadWrap e => e.rootCause
  | .resolveFail n => .resolveFail n
  | .fetchFail p => .fetchFail p
  | .cycle => .cycle
  | .execFail i => .execFail i

/-- A symbol table produced by executing a module: names bound to values.
Values are opaque to the loader and modelled as strings. -/
abbrev SymTab := List (String × String)

/-- The behaviour of the script engine on one module source: the sequence of
load statements the engine evaluates (in source order) and the result
(symbols and error) ExecFile produces once every load succeeded. -/
structure SkyModule where
  imports : List String
  outSyms : Option SymTab
  outErr : Option Err

/-- The external collaborators of loadImpl: the Resolver and the ContentStore
of the FileReader, plus the engine behaviour of each module source. -/
structure Env where
  resolve : String → String → Except Err String
  readFile : String → Except Err SkyModule

/-- One cache entry of the load closure. In the Go code the cache is a
map from module path to a nullable pointer: a key bound to nil is the
pending sentinel, a key bound to a non-nil entry is done. -/
inductive CEntry where
  | pending
  | done (syms : Option SymTab) (err : Option Err)
deriving DecidableEq

/-- The per-session cache, keyed by resolved module path. Insertion is by
consing, lookup takes the most recent binding. -/
abbrev Cache := List (String × CEntry)

def cLook : Cache → String → Option CEntry
  | [], _ => none
  | (k, v) :: rest, p => if p = k then some v else cLook rest p

def cIns (c : Cache) (k : String) (v : CEntry) : Cache := (k, v) :: c

/-- Instrumentation: one event per call into a collaborator. resolveCall
marks a Resolver invocation, readCall a ContentStore invocation, execCall an
engine (ExecFile) invocation. -/
inductive Event where
  | resolveCall (name fromPath : String)
  | readCall (p : String)
  | execCall (p : String)
deriving DecidableEq

/-- The module paths executed by the engine in a trace, in order. -/
def execPaths (tr : List Event) : List String :=
  tr.filterMap fun e =>
    match e with
    | .execCall p => some p
    | _ => none

/-- Result of one call of the load closure: updated cache, events emitted,
and the (symbols, error) pair the closure returns. -/
abbrev LOut := Cache × List Event × Option SymTab × Option Err

/-- Result of running the load statements of one module body: updated cache,
events emitted, and the first load error if any. -/
abbrev EOut := Cache × List Event × Option Err

/-- The pair of behaviours at one fuel level: ld is the load closure, ex runs
the load statements of a module body in order. -/
structure LoaderFns where
  ld : Cache → String → String → Option LOut
  ex : Cache → String → List String → Option EOut

/-- One unfolding of the load closure of loadImpl, given the behaviour prev
for nested calls. Mirrors skycfg.go: resolve the name (the requesting module
path is the fromPath), look the resolved path up in the cache (a done entry
is returned as is, the pending sentinel yields the cycle error), read the
file (a read failure is memoized as a done entry), set the pending sentinel,
execute, and replace the sentinel by the done entry. -/
def ldBody (env : Env) (prev : LoaderFns) (cache : Cache) (fromPath name : String) : Option LOut :=
  match env.resolve name fromPath with
  | .error e => some (cache, [.resolveCall name fromPath], none, some e)
  | .ok mp =>
    match cLook cache mp with
    | some (.done g e) => some (cache, [.resolveCall name fromPath], g, e)
    | some .pending => some (cache, [.resolveCall name fromPath], none, some .cycle)
    | none =>
      match env.readFile mp with
      | .error e =>
        some (cIns cache mp (.done none (some e)),
          [.resolveCall name fromPath, .readCall mp], none, some e)
      | .ok m =>
        match prev.ex (cIns cache mp .pending) mp m.imports with
        | none => none
        | some (c2, tr, some ie) =>
          some (cIns c2 mp (.done none (some (.loadWrap ie))),
            .resolveCall name fromPath :: .readCall mp :: .execCall mp :: tr,
            none, some (.loadWrap ie))
        | some (c2, tr, none) =>
          some (cIns c2 mp (.done m.outSyms m.outErr),
            .resolveCall name fromPath :: .readCall mp :: .execCall mp :: tr,
            m.outSyms, m.outErr)

/-- Engine side of one module body: the load statements are evaluated in
source order, each one calling back into the load closure with the executing
module path as fromPath; the first failing load aborts the body. -/
def exBody (prev : LoaderFns) (cache : Cache) (p : String) : List String → Option EOut
  | [] => some (cache, [], none)
  | n :: rest =>
    match prev.ld cache p n with
    | none => none
    | some (c1, tr, _, some e) => some (c1, tr, some e)
    | some (c1, tr, _, none) =>
      match prev.ex c1 p rest with
      | none => none
      | some (c2, tr2, e2) => some (c2, tr ++ tr2, e2)

/-- Fuel-indexed loader. Fuel bounds the recursion depth of the embedding;
a none result means the fuel ran out, never a behaviour of the code. -/
def loadStep (env : Env) : Nat → LoaderFns
  | 0 =>
    ⟨fun _ _ _ => none,
     fun cache _ ns =>
       match ns with
       | [] => some (cache, [], none)
       | _ :: _ => none⟩
  | fuel + 1 => ⟨ldBody env (loadStep env fuel), exBody (loadStep env fuel)⟩

/-- The load closure at a given fuel. -/
def loadM (env : Env) (fuel : Nat) : Cache → String → String → Option LOut :=
  (loadStep env fuel).ld

/-- A top-level load session: loadImpl calls the load closure on the root
filename with a fresh thread, whose empty top frame makes fromPath empty,
and a fresh empty cache. -/
def loadSession (env : Env) (fuel : Nat) (filename : String) : Option LOut :=
  loadM env fuel [] "" filename

/-- Concrete diamond import graph: R loads a and b, both load s. -/
def envDia : Env :=
  ⟨fun name _ => .ok name,
   fun p =>
     if p = "R" then .ok ⟨["a", "b"], some [("r", "1")], none⟩
     else if p = "a" then .ok ⟨["s"], some [("a", "1")], none⟩
     else if p = "b" then .ok ⟨["s"], some [("b", "1")], none⟩
     else if p = "s" then .ok ⟨[], some [("s", "1")], none⟩
     else .error (.fetchFail p)⟩

/-- Concrete cyclic import graph: A loads B, B loads C, C loads A. -/
def envABC : Env :=
  ⟨fun name _ => .ok name,
   fun p =>
     if p = "A" then .ok ⟨["B"], some [("va", "1")], none⟩
     else if p = "B" then .ok ⟨["C"], some [("vb", "1")], none⟩
     else if p = "C" then .ok ⟨["A"], some [("vc", "1")], none⟩
     else .error (.fetchFail p)⟩

/-- Concrete environment in which the import name x resolves to path X and
reading X fails. -/
def envX : Env :=
  ⟨fun name _ => .ok (if name = "x" then "X" else name),
   fun p => .error (.fetchFail p)⟩

/-- A cache holding a memoized failure for path X. -/
def cacheX : Cache := [("X", .done none (some (.fetchFail "X")))]

def Event.isResolve : Event → Bool
  | .resolveCall _ _ => true
  | _ => false

def Event.isRead : Event → Bool
  | .readCall _ => true
  | _ => false

def Event.isExec : Event → Bool
  | .execCall _ => true
  | _ => false

/-- Invariant relating the cache before a call, the cache after it, and the
events the call emitted: existing entries are preserved unchanged, every
path executed by the call was absent before and has an entry afterwards,
and no path is executed twice. -/
structure TInv (c c' : Cache) (tr : List Event) : Prop where
  pres : ∀ p e0, cLook c p = some e0 → cLook c' p = some e0
  fresh : ∀ p, p ∈ execPaths tr → cLook c p = none
  marked : ∀ p, p ∈ execPaths tr → cLook c' p ≠ none
  nodup : (execPaths tr).Nodup

/-- The load closure behaviour satisfies the invariant. -/
def LdOK (F : LoaderFns) : Prop :=
  ∀ cache fromPath name out, F.ld cache fromPath name = some out → TInv cache out.1 out.2.1

/-- The module body behaviour satisfies the invariant. -/
def ExOK (F : LoaderFns) : Prop :=
  ∀ cache p ns out, F.ex cache p ns = some out → TInv cache out.1 out.2.1

end Loader

namespace PathModel

/- Model of localFileReader.Resolve. Go strings are modelled as lists of
characters. The Go standard library functions path.Clean, filepath.FromSlash
and filepath.Join are external to this repository; they are modelled below
at segment level, following their documented lexical behaviour. -/

/-- A path segment: a run of characters between separators. -/
abbrev Seg := List Char

/-- Splitting a character list at every slash. A list without slashes is one
segment; each slash ends the current segment. -/
def splitSegs : List Char → List Seg
  | [] => [[]]
  | c :: cs =>
    if c = '/' then [] :: splitSegs cs
    else
      match splitSegs cs with
      | s :: rest => (c :: s) :: rest
      | [] => [[c]]

/-- Joining segments with a slash between consecutive segments. -/
def joinSegs : List Seg → List Char
  | [] => []
  | [s] => s
  | s :: t :: rest => s ++ '/' :: joinSegs (t :: rest)

/-- Modelled from the documented lexical algorithm of Go path.Clean, at
segment level: empty and dot segments are dropped; a dotdot segment pops the
previous segment when one is available, is dropped at the root of a rooted
path, and is kept in a non-rooted path that cannot backtrack. -/
def cleanAux (rooted : Bool) (acc : List Seg) : List Seg → List Seg
  | [] => acc
  | s :: rest =>
    if s = [] ∨ s = ['.'] then cleanAux rooted acc rest
    else if s = ['.', '.'] then
      if acc ≠ [] ∧ acc.getLast? ≠ some ['.', '.'] then cleanAux rooted acc.dropLast rest
      else if rooted then cleanAux rooted acc rest
      else cleanAux rooted (acc ++ [['.', '.']]) rest
    else cleanAux rooted (acc ++ [s]) rest

/-- Modelled from the spec and the Go documentation of path.Clean: the
shortest lexically equivalent path; a rooted result keeps its leading slash,
an empty result becomes a dot. -/
def goClean (p : List Char) : List Char :=
  if p = [] then ['.']
  else if p.head? = some '/' then '/' :: joinSegs (cleanAux true [] (splitSegs p))
  else
    let segs := cleanAux false [] (splitSegs p)
    if segs = [] then ['.'] else joinSegs segs

/-- Modelled from Go filepath.FromSlash: every slash becomes the platform
separator. -/
def fromSlash (sep : Char) (p : List Char) : List Char :=
  p.map fun c => if c = '/' then sep else c

/-- Modelled from Go filepath.Join for two non-empty elements on a platform
whose separator is the slash: the elements are joined with a separator and
the result is cleaned. -/
def joinPath (root q : List Char) : List Char :=
  goClean (root ++ '/' :: q)

inductive ResolveErr where
  | invalidChar (name : List Char)
deriving DecidableEq

/-- Embedding of localFileReader.Resolve, parameterised by the platform
separator sep (Go filepath.Separator). An empty fromPath returns the name
unchanged; otherwise a name containing the platform separator is rejected
when that separator is not the slash, and the name is cleaned below a
virtual root and joined under the reader root. Path joining is modelled for
the slash-separator platform. -/
def localResolve (sep : Char) (root name fromPath : List Char) : Except ResolveErr (List Char) :=
  if fromPath = [] then .ok name
  else if sep ≠ '/' ∧ sep ∈ name then .error (.invalidChar name)
  else .ok (joinPath root (fromSlash sep (goClean ('/' :: name))))

/-- A good segment: non-empty, not a dot, not a dotdot, and without slashes.
A cleaned rooted path consists of good segments only. -/
def segGood (s : Seg) : Prop := s ≠ [] ∧ s ≠ ['.'] ∧ s ≠ ['.', '.'] ∧ '/' ∉ s

instance (s : Seg) : Decidable (segGood s) := by
  unfold segGood
  infer_instance

end PathModel

instance {ε α : Type} [DecidableEq ε] [DecidableEq α] : DecidableEq (Except ε α) :=
  fun a b =>
    match a, b with
    | .ok x, .ok y => if h : x = y then .isTrue (by rw [h]) else .isFalse (by simp [h])
    | .error x, .error y => if h : x = y then .isTrue (by rw [h]) else .isFalse (by simp [h])
    | .ok _, .error _ => .isFalse (by simp)
    | .error _, .ok _ => .isFalse (by simp)

namespace Exec

/- Model of the execution harness (Config.Main) and the test harness
(Test, Config.Tests, Config.RunTests). -/

/-- Contents of the ctx.vars dictionary passed to main and to tests. The
starlark dictionary is mutable; its contents are threaded explicitly, and
the values are opaque to the harness and modelled as strings. -/
abbrev Vars := List (String × String)

/-- Starlark values as the harness observes them: the None sentinel, lists,
values recognised by the protobuf value bridge (carrying a message id),
plain data values, and callables. A callable is modelled by its engine
behaviour: from the ctx.vars contents it produces the updated ctx.vars
contents and either a value or an engine error. -/
inductive SkyVal where
  | noneV
  | boolV (b : Bool)
  | intV (n : Int)
  | stringV (s : String)
  | listV (elems : List SkyVal)
  | protoV (id : Nat)
  | funcV (call : Vars → Vars × Except String SkyVal)

/-- The starlark Type() string of a value. -/
def SkyVal.typeName : SkyVal → String
  | .noneV => "NoneType"
  | .boolV _ => "bool"
  | .intV _ => "int"
  | .stringV _ => "string"
  | .listV _ => "list"
  | .protoV _ => "skycfg_proto_message"
  | .funcV _ => "function"

/-- Model of AsProtoMessage: only values created through the protobuf value
bridge convert back to a message. -/
def SkyVal.asProtoMessage : SkyVal → Option Nat
  | .protoV id => some id
  | _ => none

/-- Lookup in a starlark StringDict, modelled as an association list. -/
def lookupSD : List (String × SkyVal) → String → Option SkyVal
  | [], _ => none
  | (k, v) :: rest, n => if n = k then some v else lookupSD rest n

/-- A loaded Config: filename, global symbols, locals of the root module. -/
structure ConfigM where
  filename : String
  globals : List (String × SkyVal)
  locals : List (String × SkyVal)

/-- The errors Config.Main returns, one constructor per fmt.Errorf site. -/
inductive MainError where
  | noMainFunction (filename : String)
  | notCallable (typeName : String)
  | evalError (msg : String)
  | notAList (typeName : String)
  | notProto (typeName : String)
deriving DecidableEq

/-- The element loop of Config.Main: each element of the returned list is
converted by AsProtoMessage; the first element that is not a message stops
the loop with an error naming the element Type(). -/
def bridgeList : List SkyVal → Except MainError (List Nat)
  | [] => .ok []
  | x :: xs =>
    match x.asProtoMessage with
    | none => .error (.notProto x.typeName)
    | some m =>
      match bridgeList xs with
      | .error e => .error e
      | .ok ms => .ok (m :: ms)

/-- Embedding of Config.Main. The vars argument is the ctx.vars dictionary
already assembled from the exec options. Mirrors skycfg.go: look main up in
the locals, require a callable, call it with the single ctx argument,
propagate an engine error, then accept a list of bridge messages or the None
sentinel, and reject anything else by its Type(). -/
def ConfigM.Main (c : ConfigM) (vars : Vars) : Except MainError (List Nat) :=
  match lookupSD c.locals "main" with
  | none => .error (.noMainFunction c.filename)
  | some mainVal =>
    match mainVal with
    | .funcV call =>
      match (call vars).2 with
      | .error e => .error (.evalError e)
      | .ok ret =>
        match ret with
        | .listV xs => bridgeList xs
        | .noneV => .ok []
        | other => .error (.notAList other.typeName)
    | other => .error (.notCallable other.typeName)

/-- First element of a list that the value bridge rejects, if any. -/
def firstNonProto : List SkyVal → Option SkyVal
  | [] => none
  | x :: xs => if x.asProtoMessage = none then some x else firstNonProto xs

/-- Index of the first element that the value bridge rejects, if any. -/
def firstBadIdxAux : Nat → List SkyVal → Option Nat
  | _, [] => none
  | i, x :: xs => if x.asProtoMessage = none then some i else firstBadIdxAux (i + 1) xs

def firstBadIdx : List SkyVal → Option Nat := firstBadIdxAux 0

/-- A callable returning a fixed value without touching ctx.vars. -/
def retVal (v : SkyVal) : SkyVal :=
  .funcV fun vars => (vars, .ok v)

/-- Config whose main returns a two-element list with a non-message value at
index one. -/
def cfgIdx1 : ConfigM :=
  ⟨"f1.sky", [], [("main", retVal (.listV [.protoV 0, .stringV "not a record"]))]⟩

/-- Config whose main returns a one-element list with a non-message value at
index zero. -/
def cfgIdx0 : ConfigM :=
  ⟨"f0.sky", [], [("main", retVal (.listV [.stringV "not a record"]))]⟩

/-- Config whose main returns a list of two bridge messages. -/
def cfgTwoMsgs : ConfigM :=
  ⟨"ok.sky", [], [("main", retVal (.listV [.protoV 7, .protoV 3]))]⟩

/-- Test result codes of skycfg.go. -/
abbrev TestResult := Int

def PASS : TestResult := 0

def FAIL : TestResult := 1

/-- Embedding of the Test struct: a named test callable plus the recorded
outcome fields, with the completion flag. -/
structure TestT where
  name : String
  callable : Vars → Vars × Except String SkyVal
  result : TestResult
  duration : Nat
  complete : Bool
  err : Option String

/-- The error recorded from an engine call. -/
def errOf (r : Except String SkyVal) : Option String :=
  match r with
  | .error m => some m
  | .ok _ => none

/-- Embedding of Test.Run. A fresh empty ctx.vars dictionary is built for
the call; the wall clock measurement is modelled by the clock argument. The
updated test and the returned error are produced. -/
def TestT.runT (t : TestT) (clock : Nat) : TestT × Option String :=
  let e := errOf (t.callable []).2
  (⟨t.name, t.callable,
    match e with
    | some _ => FAIL
    | none => PASS,
    clock, true, e⟩, e)

/-- Embedding of Test.Result. The Go method panics when the test has not
completed; the panic is modelled by none. -/
def TestT.ResultA (t : TestT) : Option TestResult :=
  if t.complete then some t.result else none

/-- Embedding of Test.Duration; none models the panic before completion. -/
def TestT.DurationA (t : TestT) : Option Nat :=
  if t.complete then some t.duration else none

/-- Embedding of Test.Error; none models the panic before completion. -/
def TestT.ErrorA (t : TestT) : Option (Option String) :=
  if t.complete then some t.err else none

/-- Character-list core of the prefix test. -/
def charsStart : List Char → List Char → Bool
  | _, [] => true
  | [], _ :: _ => false
  | c :: cs, p :: ps => if c = p then charsStart cs ps else false

/-- Modelled from Go strings.HasPrefix, over the character lists of the
two strings. -/
def strStarts (s pre : String) : Bool := charsStart s.data pre.data

/-- Embedding of Config.Tests: every local whose name carries the test
prefix and whose value is a function, as a not-yet-run Test. Go iterates a
map in unspecified order; the model iterates the association list in order. -/
def testsOf : List (String × SkyVal) → List TestT
  | [] => []
  | (name, v) :: rest =>
    match v with
    | .funcV f =>
      if strStarts name "test_" then
        ⟨name, f, PASS, 0, false, none⟩ :: testsOf rest
      else testsOf rest
    | _ => testsOf rest

/-- The loop of Config.RunTests: every local whose name carries the test
prefix and whose value is a function is called with the single ctx argument.
All tests of one run share the one ctx.vars dictionary built before the
loop, so its contents are threaded from call to call. Returns the final
dictionary contents, the failure messages, and (as instrumentation) the
names of the tests that were called, in order. -/
def runTestsAux (vars : Vars) : List (String × SkyVal) → Vars × List String × List String
  | [] => (vars, [], [])
  | (name, v) :: rest =>
    match v with
    | .funcV f =>
      if strStarts name "test_" then
        match f vars with
        | (vars1, .error m) =>
          let r := runTestsAux vars1 rest
          (r.1, ("Test did not exit cleanly (" ++ name ++ "): " ++ m) :: r.2.1, name :: r.2.2)
        | (vars1, .ok _) =>
          let r := runTestsAux vars1 rest
          (r.1, r.2.1, name :: r.2.2)
      else runTestsAux vars rest
    | _ => runTestsAux vars rest

/-- Embedding of Config.RunTests: run every discovered test, then return the
failure messages with an aggregate error when any test failed, and nothing
otherwise. The vars argument is the ctx.vars dictionary assembled from the
exec options. -/
def runTestsM (locals : List (String × SkyVal)) (vars : Vars) : List String × Option String :=
  let msgs := (runTestsAux vars locals).2.1
  if msgs = [] then ([], none)
  else (msgs, some (toString msgs.length ++ " tests failed to exit cleanly"))

/-- A test body that records a key into ctx.vars and passes. -/
def fWrite : Vars → Vars × Except String SkyVal :=
  fun v => (("k", "1") :: v, .ok .noneV)

def lookupVar : Vars → String → Option String
  | [], _ => none
  | (k, s) :: rest, n => if n = k then some s else lookupVar rest n

/-- A test body that fails exactly when the key is present in ctx.vars. -/
def fRead : Vars → Vars × Except String SkyVal :=
  fun v =>
    (v, match lookupVar v "k" with
        | some _ => .error "observed mutation from another test"
        | none => .ok .noneV)

/-- Locals with a mutating test followed by a test observing the mutation. -/
def localsShared : List (String × SkyVal) :=
  [("test_a", .funcV fWrite), ("test_b", .funcV fRead)]

/-- A test body that always passes. -/
def fPass : Vars → Vars × Except String SkyVal :=
  fun v => (v, .ok .noneV)

/-- Locals with a single always-passing test. -/
def localsPass : List (String × SkyVal) :=
  [("test_p", .funcV fPass)]

/-- A test body that always fails. -/
def fFail : Vars → Vars × Except String SkyVal :=
  fun v => (v, .error "boom")

/-- Locals with a passing test followed by a failing one. -/
def localsMixed : List (String × SkyVal) :=
  [("test_p", .funcV fPass), ("test_q", .funcV fFail)]

/-- The failure message RunTests records for a named test call result. -/
def msgOf (name : String) (r : Except String SkyVal) : List String :=
  match r with
  | .error m => ["Test did not exit cleanly (" ++ name ++ "): " ++ m]
  | .ok _ => []

/-- Config whose main returns a one-element list holding a string. -/
def cfgKind : ConfigM :=
  ⟨"w.sky", [], [("main", retVal (.listV [.stringV "nope"]))]⟩

/-- A not-yet-run test over the always-passing body. -/
def tW : TestT := ⟨"test_p", fPass, PASS, 0, false, none⟩

end Exec

/- Helper lemmas. -/

namespace Loader

theorem cLook_cIns_self (c : Cache) (k : String) (v : CEntry) : cLook (cIns c k v) k = some v := by
  simp [cIns, cLook]

theorem cLook_cIns_ne (c : Cache) (k : String) (v : CEntry) (p : String) (h : p ≠ k) :
    cLook (cIns c k v) p = cLook c p := by
  simp [cIns, cLook, h]

theorem execPaths_nil : execPaths [] = [] := rfl

theorem execPaths_resolve (n f : String) (tr : List Event) :
    execPaths (.resolveCall n f :: tr) = execPaths tr := rfl

theorem execPaths_read (p : String) (tr : List Event) :
    execPaths (.readCall p :: tr) = execPaths tr := rfl

theorem execPaths_exec (p : String) (tr : List Event) :
    execPaths (.execCall p :: tr) = p :: execPaths tr := rfl

theorem execPaths_append (a b : List Event) :
    execPaths (a ++ b) = execPaths a ++ execPaths b := by
  simp [execPaths]

theorem tinv_noexec (c : Cache) (tr : List Event) (h : execPaths tr = []) : TInv c c tr := by
  refine ⟨fun p e0 hp => hp, ?_, ?_, ?_⟩ <;> rw [h]
  · intro p hp; cases hp
  · intro p hp; cases hp
  · exact List.nodup_nil

theorem tinv_noexec_ins (c : Cache) (mp : String) (v : CEntry) (tr : List Event)
    (h : execPaths tr = []) (hmp : cLook c mp = none) : TInv c (cIns c mp v) tr := by
  refine ⟨?_, ?_, ?_, ?_⟩
  · intro p e0 hp
    have hne : p ≠ mp := by
      intro he
      rw [he, hmp] at hp
      cases hp
    rw [cLook_cIns_ne _ _ _ _ hne]
    exact hp
  · rw [h]; intro p hp; cases hp
  · rw [h]; intro p hp; cases hp
  · rw [h]; exact List.nodup_nil

theorem ldBody_inv (env : Env) (prev : LoaderFns) (hex : ExOK prev) :
    ∀ cache fromPath name out, ldBody env prev cache fromPath name = some out →
      TInv cache out.1 out.2.1 := by
  intro cache fromPath name out h
  unfold ldBody at h
  split at h
  · -- resolve error
    cases h
    exact tinv_noexec _ _ rfl
  · -- resolved to mp
    rename_i mp _
    split at h
    · -- done hit
      cases h
      exact tinv_noexec _ _ rfl
    · -- pending hit
      cases h
      exact tinv_noexec _ _ rfl
    · -- absent
      rename_i hlook
      split at h
      · -- read error
        cases h
        exact tinv_noexec_ins _ _ _ _ rfl hlook
      · -- read ok, execute
        rename_i m _
        split at h
        · cases h
        · -- imports failed
          rename_i c2 tr ie hexec
          cases h
          have hInv : TInv (cIns cache mp .pending) c2 tr := hex _ _ _ _ hexec
          refine ⟨?_, ?_, ?_, ?_⟩
          · intro p e0 hp
            have hne : p ≠ mp := by
              intro he
              rw [he, hlook] at hp
              cases hp
            have h1 : cLook (cIns cache mp .pending) p = some e0 := by
              rw [cLook_cIns_ne _ _ _ _ hne]; exact hp
            have h2 := hInv.pres p e0 h1
            show cLook (cIns c2 mp _) p = some e0
            rw [cLook_cIns_ne _ _ _ _ hne]
            exact h2
          · intro p hp
            simp only [execPaths_resolve, execPaths_read, execPaths_exec, List.mem_cons] at hp
            rcases hp with hp | hp
            · rw [hp]; exact hlook
            · have h1 := hInv.fresh p hp
              have hne : p ≠ mp := by
                intro he
                rw [he, cLook_cIns_self] at h1
                cases h1
              rw [cLook_cIns_ne _ _ _ _ hne] at h1
              exact h1
          · intro p hp
            simp only [execPaths_resolve, execPaths_read, execPaths_exec, List.mem_cons] at hp
            rcases hp with hp | hp
            · rw [hp, cLook_cIns_self]; simp
            · by_cases he : p = mp
              · rw [he, cLook_cIns_self]; simp
              · rw [cLook_cIns_ne _ _ _ _ he]
                exact hInv.marked p hp
          · simp only [execPaths_resolve, execPaths_read, execPaths_exec]
            refine List.nodup_cons.mpr ⟨?_, hInv.nodup⟩
            intro hmem
            have h1 := hInv.fresh mp hmem
            rw [cLook_cIns_self] at h1
            cases h1
        · -- imports ok
          rename_i c2 tr hexec
          cases h
          have hInv : TInv (cIns cache mp .pending) c2 tr := hex _ _ _ _ hexec
          refine ⟨?_, ?_, ?_, ?_⟩
          · intro p e0 hp
            have hne : p ≠ mp := by
              intro he
              rw [he, hlook] at hp
              cases hp
            have h1 : cLook (cIns cache mp .pending) p = some e0 := by
              rw [cLook_cIns_ne _ _ _ _ hne]; exact hp
            have h2 := hInv.pres p e0 h1
            show cLook (cIns c2 mp _) p = some e0
            rw [cLook_cIns_ne _ _ _ _ hne]
            exact h2
          · intro p hp
            simp only [execPaths_resolve, execPaths_read, execPaths_exec, List.mem_cons] at hp
            rcases hp with hp | hp
            · rw [hp]; exact hlook
            · have h1 := hInv.fresh p hp
              have hne : p ≠ mp := by
                intro he
                rw [he, cLook_cIns_self] at h1
                cases h1
              rw [cLook_cIns_ne _ _ _ _ hne] at h1
              exact h1
          · intro p hp
            simp only [execPaths_resolve, execPaths_read, execPaths_exec, List.mem_cons] at hp
            rcases hp with hp | hp
            · rw [hp, cLook_cIns_self]; simp
            · by_cases he : p = mp
              · rw [he, cLook_cIns_self]; simp
              · rw [cLook_cIns_ne _ _ _ _ he]
                exact hInv.marked p hp
          · simp only [execPaths_resolve, execPaths_read, execPaths_exec]
            refine List.nodup_cons.mpr ⟨?_, hInv.nodup⟩
            intro hmem
            have h1 := hInv.fresh mp hmem
            rw [cLook_cIns_self] at h1
            cases h1

theorem exBody_inv (prev : LoaderFns) (hld : LdOK prev) (hex : ExOK prev) :
    ∀ cache p ns out, exBody prev cache p ns = some out → TInv cache out.1 out.2.1 := by
  intro cache p ns out h
  cases ns with
  | nil =>
    simp only [exBody] at h
    cases h
    exact tinv_noexec _ _ rfl
  | cons n rest =>
    simp only [exBody] at h
    split at h
    · cases h
    · -- first load failed
      rename_i c1 tr g e hn
      cases h
      exact hld _ _ _ _ hn
    · -- first load ok
      rename_i c1 tr g hn
      split at h
      · cases h
      · rename_i c2 tr2 e2 hrest
        cases h
        have I1 : TInv cache c1 tr := hld _ _ _ _ hn
        have I2 : TInv c1 c2 tr2 := hex _ _ _ _ hrest
        refine ⟨?_, ?_, ?_, ?_⟩
        · intro q e0 hq
          exact I2.pres q e0 (I1.pres q e0 hq)
        · intro q hq
          rw [execPaths_append, List.mem_append] at hq
          rcases hq with hq | hq
          · exact I1.fresh q hq
          · have h1 := I2.fresh q hq
            cases hc : cLook cache q with
            | none => rfl
            | some e0 =>
              have := I1.pres q e0 hc
              rw [this] at h1
              cases h1
        · intro q hq
          rw [execPaths_append, List.mem_append] at hq
          rcases hq with hq | hq
          · have h1 := I1.marked q hq
            cases hc : cLook c1 q with
            | none => exact absurd hc h1
            | some e0 =>
              rw [I2.pres q e0 hc]
              simp
          · exact I2.marked q hq
        · rw [execPaths_append]
          refine List.Nodup.append I1.nodup I2.nodup ?_
          intro q hq1 hq2
          have h1 := I1.marked q hq1
          have h2 := I2.fresh q hq2
          exact h1 h2

theorem loadStep_inv (env : Env) :
    ∀ fuel, LdOK (loadStep env fuel) ∧ ExOK (loadStep env fuel) := by
  intro fuel
  induction fuel with
  | zero =>
    constructor
    · intro cache fromPath name out h
      simp [loadStep] at h
    · intro cache p ns out h
      cases ns with
      | nil =>
        simp only [loadStep] at h
        cases h
        exact tinv_noexec _ _ rfl
      | cons n rest =>
        simp [loadStep] at h
  | succ fuel ih =>
    constructor
    · intro cache fromPath name out h
      exact ldBody_inv env (loadStep env fuel) ih.2 _ _ _ _ h
    · intro cache p ns out h
      exact exBody_inv (loadStep env fuel) ih.1 ih.2 _ _ _ _ h

theorem loadM_done_hit (env : Env) (fuel : Nat) (cache : Cache) (fromPath name mp : String)
    (g : Option SymTab) (e : Option Err)
    (hres : env.resolve name fromPath = .ok mp) (hlook : cLook cache mp = some (.done g e)) :
    loadM env (fuel + 1) cache fromPath name =
      some (cache, [.resolveCall name fromPath], g, e) := by
  simp [loadM, loadStep, ldBody, hres, hlook]

theorem loadM_pending_hit (env : Env) (fuel : Nat) (cache : Cache) (fromPath name mp : String)
    (hres : env.resolve name fromPath = .ok mp) (hlook : cLook cache mp = some .pending) :
    loadM env (fuel + 1) cache fromPath name =
      some (cache, [.resolveCall name fromPath], none, some .cycle) := by
  simp [loadM, loadStep, ldBody, hres, hlook]

end Loader

namespace PathModel

theorem splitSegs_ne_nil : ∀ l : List Char, splitSegs l ≠ []
  | [] => by simp [splitSegs]
  | c :: cs => by
    simp only [splitSegs]
    split
    · simp
    · cases h : splitSegs cs with
      | nil => simp
      | cons s rest => simp

theorem splitSegs_slash (cs : List Char) : splitSegs ('/' :: cs) = [] :: splitSegs cs := by
  simp [splitSegs]

theorem splitSegs_noSlash (a : List Char) (h : '/' ∉ a) : splitSegs a = [a] := by
  induction a with
  | nil => rfl
  | cons c cs ih =>
    simp only [List.mem_cons, not_or] at h
    simp only [splitSegs, if_neg (Ne.symm h.1)]
    rw [ih h.2]

theorem splitSegs_append_slash (a b : List Char) (h : '/' ∉ a) :
    splitSegs (a ++ '/' :: b) = a :: splitSegs b := by
  induction a with
  | nil => simp [splitSegs_slash]
  | cons c cs ih =>
    simp only [List.mem_cons, not_or] at h
    simp only [List.cons_append, splitSegs, if_neg (Ne.symm h.1), List.append_eq]
    rw [ih h.2]

theorem splitSegs_mem_noSlash : ∀ (l : List Char), ∀ s ∈ splitSegs l, '/' ∉ s := by
  intro l
  induction l with
  | nil =>
    intro s hs
    simp [splitSegs] at hs
    simp [hs]
  | cons c cs ih =>
    intro s hs
    simp only [splitSegs] at hs
    by_cases hc : c = '/'
    · rw [if_pos hc] at hs
      rcases List.mem_cons.mp hs with h | h
      · simp [h]
      · exact ih s h
    · rw [if_neg hc] at hs
      cases hsp : splitSegs cs with
      | nil => exact absurd hsp (splitSegs_ne_nil cs)
      | cons t rest =>
        rw [hsp] at hs
        rcases List.mem_cons.mp hs with h | h
        · subst h
          intro hmem
          rcases List.mem_cons.mp hmem with h | h
          · exact hc h.symm
          · exact ih t (hsp ▸ List.mem_cons_self t rest) h
        · exact ih s (hsp ▸ List.mem_cons_of_mem t h)

theorem cleanAux_skip_nil (r : Bool) (acc : List Seg) (l : List Seg) :
    cleanAux r acc ([] :: l) = cleanAux r acc l := by
  simp [cleanAux]

theorem cleanAux_chunks (r : Bool) (l1 : List Seg) :
    ∀ (acc : List Seg) (l2 : List Seg),
      cleanAux r acc (l1 ++ l2) = cleanAux r (cleanAux r acc l1) l2 := by
  induction l1 with
  | nil => intro acc l2; simp [cleanAux]
  | cons s rest ih =>
    intro acc l2
    simp only [List.cons_append, cleanAux, List.append_eq]
    by_cases h1 : s = [] ∨ s = ['.']
    · simp only [if_pos h1]
      exact ih acc l2
    · simp only [if_neg h1]
      by_cases h2 : s = ['.', '.']
      · simp only [if_pos h2]
        by_cases h3 : acc ≠ [] ∧ acc.getLast? ≠ some ['.', '.']
        · simp only [if_pos h3]
          exact ih acc.dropLast l2
        · simp only [if_neg h3]
          by_cases hr : r = true
          · simp only [if_pos hr]
            exact ih acc l2
          · simp only [if_neg hr]
            exact ih (acc ++ [['.', '.']]) l2
      · simp only [if_neg h2]
        exact ih (acc ++ [s]) l2

theorem cleanAux_good_id (r : Bool) (l : List Seg)
    (h : ∀ s ∈ l, s ≠ [] ∧ s ≠ ['.'] ∧ s ≠ ['.', '.']) :
    ∀ acc : List Seg, cleanAux r acc l = acc ++ l := by
  induction l with
  | nil => intro acc; simp [cleanAux]
  | cons s rest ih =>
    intro acc
    have hs := h s (List.mem_cons_self s rest)
    have hrest : ∀ t ∈ rest, t ≠ [] ∧ t ≠ ['.'] ∧ t ≠ ['.', '.'] :=
      fun t ht => h t (List.mem_cons_of_mem s ht)
    have h1 : ¬(s = [] ∨ s = ['.']) := by
      rintro (hx | hx)
      · exact hs.1 hx
      · exact hs.2.1 hx
    simp only [cleanAux, if_neg h1, if_neg hs.2.2]
    rw [ih hrest (acc ++ [s])]
    simp

theorem cleanAux_rooted_good (l : List Seg) (hl : ∀ s ∈ l, '/' ∉ s) :
    ∀ acc : List Seg, (∀ s ∈ acc, segGood s) →
      ∀ s ∈ cleanAux true acc l, segGood s := by
  induction l with
  | nil =>
    intro acc hacc s hs
    simp only [cleanAux] at hs
    exact hacc s hs
  | cons t rest ih =>
    intro acc hacc s hs
    have ht := hl t (List.mem_cons_self t rest)
    have hrest : ∀ u ∈ rest, '/' ∉ u := fun u hu => hl u (List.mem_cons_of_mem t hu)
    simp only [cleanAux] at hs
    by_cases h1 : t = [] ∨ t = ['.']
    · rw [if_pos h1] at hs
      exact ih hrest acc hacc s hs
    · rw [if_neg h1] at hs
      by_cases h2 : t = ['.', '.']
      · rw [if_pos h2] at hs
        by_cases h3 : acc ≠ [] ∧ acc.getLast? ≠ some ['.', '.']
        · rw [if_pos h3] at hs
          refine ih hrest acc.dropLast ?_ s hs
          intro u hu
          exact hacc u ((List.dropLast_sublist acc).mem hu)
        · rw [if_neg h3] at hs
          simp only [if_true] at hs
          exact ih hrest acc hacc s hs
      · rw [if_neg h2] at hs
        refine ih hrest (acc ++ [t]) ?_ s hs
        intro u hu
        rcases List.mem_append.mp hu with h | h
        · exact hacc u h
        · rw [List.mem_singleton.mp h]
          push_neg at h1
          exact ⟨h1.1, h1.2, h2, ht⟩

theorem joinSegs_cons_cons (s t : Seg) (rest : List Seg) :
    joinSegs (s :: t :: rest) = s ++ '/' :: joinSegs (t :: rest) := rfl

theorem splitSegs_joinSegs : ∀ ss : List Seg, ss ≠ [] → (∀ s ∈ ss, '/' ∉ s) →
    splitSegs (joinSegs ss) = ss
  | [], h, _ => absurd rfl h
  | [s], _, h => by
    simp only [joinSegs]
    exact splitSegs_noSlash s (h s (List.mem_singleton_self s))
  | s :: t :: rest, _, h => by
    rw [joinSegs_cons_cons,
      splitSegs_append_slash _ _ (h s (List.mem_cons_self s (t :: rest))),
      splitSegs_joinSegs (t :: rest) (by simp)
        (fun u hu => h u (List.mem_cons_of_mem s hu))]

theorem splitSegs_joinSegs_append : ∀ (ss : List Seg) (b : List Char), ss ≠ [] →
    (∀ s ∈ ss, '/' ∉ s) → splitSegs (joinSegs ss ++ '/' :: b) = ss ++ splitSegs b
  | [], _, h, _ => absurd rfl h
  | [s], b, _, h => by
    simp only [joinSegs]
    rw [splitSegs_append_slash s b (h s (List.mem_singleton_self s))]
    rfl
  | s :: t :: rest, b, _, h => by
    rw [joinSegs_cons_cons, List.append_assoc, List.cons_append]
    rw [splitSegs_append_slash _ _ (h s (List.mem_cons_self s (t :: rest)))]
    rw [show joinSegs (t :: rest) ++ '/' :: b = joinSegs (t :: rest) ++ '/' :: b from rfl]
    rw [splitSegs_joinSegs_append (t :: rest) b (by simp)
      (fun u hu => h u (List.mem_cons_of_mem s hu))]
    rfl

theorem ite_slash_self (c : Char) : (if c = '/' then '/' else c) = c := by
  by_cases h : c = '/' <;> simp [h]

theorem fromSlash_slash (p : List Char) : fromSlash '/' p = p := by
  unfold fromSlash
  induction p with
  | nil => rfl
  | cons c cs ih => rw [List.map_cons, ih, ite_slash_self]

theorem goClean_slash_cons (x : List Char) :
    goClean ('/' :: x) = '/' :: joinSegs (cleanAux true [] (splitSegs x)) := by
  simp [goClean, splitSegs_slash, cleanAux_skip_nil]

theorem segGood_parts (s : Seg) (h : segGood s) :
    s ≠ [] ∧ s ≠ ['.'] ∧ s ≠ ['.', '.'] :=
  ⟨h.1, h.2.1, h.2.2.1⟩

theorem segGood_noSlash (s : Seg) (h : segGood s) : '/' ∉ s := h.2.2.2

theorem joinPath_confined (rsegs segs : List Seg)
    (hr : ∀ s ∈ rsegs, segGood s) (hs : ∀ s ∈ segs, segGood s) :
    joinPath ('/' :: joinSegs rsegs) ('/' :: joinSegs segs) =
      '/' :: joinSegs (rsegs ++ segs) := by
  unfold joinPath
  rw [show ('/' :: joinSegs rsegs) ++ '/' :: ('/' :: joinSegs segs) =
    '/' :: (joinSegs rsegs ++ '/' :: '/' :: joinSegs segs) from rfl]
  rw [goClean_slash_cons]
  congr 1
  congr 1
  cases rsegs with
  | nil =>
    simp only [joinSegs, List.nil_append]
    rw [splitSegs_slash, splitSegs_slash, cleanAux_skip_nil, cleanAux_skip_nil]
    cases segs with
    | nil =>
      simp [joinSegs, splitSegs, cleanAux]
    | cons s ss =>
      rw [splitSegs_joinSegs (s :: ss) (by simp)
        (fun u hu => segGood_noSlash u (hs u hu))]
      exact cleanAux_good_id true (s :: ss)
        (fun u hu => segGood_parts u (hs u hu)) []
  | cons r rs =>
    rw [show joinSegs (r :: rs) ++ '/' :: '/' :: joinSegs segs =
      joinSegs (r :: rs) ++ '/' :: ('/' :: joinSegs segs) from rfl]
    rw [splitSegs_joinSegs_append (r :: rs) _ (by simp)
      (fun u hu => segGood_noSlash u (hr u hu))]
    rw [splitSegs_slash]
    rw [show (r :: rs) ++ [] :: splitSegs (joinSegs segs) =
      (r :: rs) ++ ([] :: splitSegs (joinSegs segs)) from rfl]
    rw [cleanAux_chunks true (r :: rs) [] ([] :: splitSegs (joinSegs segs))]
    rw [cleanAux_good_id true (r :: rs) (fun u hu => segGood_parts u (hr u hu)) []]
    rw [List.nil_append, cleanAux_skip_nil]
    cases segs with
    | nil =>
      simp [joinSegs, splitSegs, cleanAux]
    | cons s ss =>
      rw [splitSegs_joinSegs (s :: ss) (by simp)
        (fun u hu => segGood_noSlash u (hs u hu))]
      exact cleanAux_good_id true (s :: ss)
        (fun u hu => segGood_parts u (hs u hu)) (r :: rs)

theorem goClean_name_good (name : List Char) :
    ∀ s ∈ cleanAux true [] (splitSegs name), segGood s :=
  cleanAux_rooted_good (splitSegs name) (splitSegs_mem_noSlash name) [] (by simp)

theorem localResolve_confined (rsegs : List Seg) (name fromPath : List Char)
    (hr : ∀ s ∈ rsegs, segGood s) (hfp : fromPath ≠ []) :
    ∃ segs, (∀ s ∈ segs, segGood s) ∧
      localResolve '/' ('/' :: joinSegs rsegs) name fromPath =
        .ok ('/' :: joinSegs (rsegs ++ segs)) := by
  refine ⟨cleanAux true [] (splitSegs name), goClean_name_good name, ?_⟩
  unfold localResolve
  rw [if_neg hfp, if_neg (by simp)]
  rw [fromSlash_slash, goClean_slash_cons]
  rw [joinPath_confined rsegs _ hr (goClean_name_good name)]

theorem localResolve_reject (sep : Char) (root name fromPath : List Char)
    (hfp : fromPath ≠ []) (hsep : sep ≠ '/') (hmem : sep ∈ name) :
    localResolve sep root name fromPath = .error (.invalidChar name) := by
  unfold localResolve
  rw [if_neg hfp, if_pos ⟨hsep, hmem⟩]

end PathModel

namespace Exec

theorem bridge_error_first (xs : List SkyVal) (x : SkyVal) (h : firstNonProto xs = some x) :
    bridgeList xs = .error (.notProto x.typeName) := by
  induction xs with
  | nil => simp [firstNonProto] at h
  | cons y ys ih =>
    simp only [firstNonProto] at h
    by_cases hy : y.asProtoMessage = none
    · rw [if_pos hy] at h
      cases h
      simp [bridgeList, hy]
    · rw [if_neg hy] at h
      obtain ⟨m, hm⟩ := Option.ne_none_iff_exists'.mp hy
      simp [bridgeList, hm, ih h]

theorem bridge_ok_forall₂ (xs : List SkyVal) :
    ∀ ms : List Nat, bridgeList xs = .ok ms →
      List.Forall₂ (fun x m => SkyVal.asProtoMessage x = some m) xs ms := by
  induction xs with
  | nil =>
    intro ms h
    simp only [bridgeList] at h
    cases h
    exact List.Forall₂.nil
  | cons y ys ih =>
    intro ms h
    simp only [bridgeList] at h
    cases hy : y.asProtoMessage with
    | none => rw [hy] at h; cases h
    | some m =>
      rw [hy] at h
      cases hb : bridgeList ys with
      | error e => rw [hb] at h; cases h
      | ok ms1 =>
        rw [hb] at h
        cases h
        exact List.Forall₂.cons hy (ih ms1 hb)

theorem testsOf_not_complete (locals : List (String × SkyVal)) :
    ∀ t ∈ testsOf locals, t.complete = false := by
  induction locals with
  | nil => intro t ht; simp [testsOf] at ht
  | cons p rest ih =>
    intro t ht
    obtain ⟨name, v⟩ := p
    cases v with
    | funcV f =>
      simp only [testsOf] at ht
      by_cases hn : strStarts name "test_" = true
      · rw [if_pos hn] at ht
        rcases List.mem_cons.mp ht with h | h
        · rw [h]
        · exact ih t h
      · rw [if_neg hn] at ht
        exact ih t ht
    | noneV => exact ih t ht
    | boolV b => exact ih t ht
    | intV n => exact ih t ht
    | stringV s => exact ih t ht
    | listV es => exact ih t ht
    | protoV id => exact ih t ht

theorem runTestsAux_trace (locals : List (String × SkyVal)) :
    ∀ vars : Vars, (runTestsAux vars locals).2.2 = (testsOf locals).map TestT.name := by
  induction locals with
  | nil => intro vars; rfl
  | cons p rest ih =>
    intro vars
    obtain ⟨name, v⟩ := p
    cases v with
    | funcV f =>
      simp only [runTestsAux, testsOf]
      by_cases hn : strStarts name "test_" = true
      · rw [if_pos hn, if_pos hn]
        rcases hf : f vars with ⟨v1, r⟩
        cases r with
        | error m => simp [ih v1]
        | ok val => simp [ih v1]
      · rw [if_neg hn, if_neg hn]
        exact ih vars
    | noneV => exact ih vars
    | boolV b => exact ih vars
    | intV n => exact ih vars
    | stringV s => exact ih vars
    | listV es => exact ih vars
    | protoV id => exact ih vars

theorem runTestsAux_msgs_nil (locals : List (String × SkyVal))
    (h : ∀ t ∈ testsOf locals, ∀ v, errOf (t.callable v).2 = none) :
    ∀ vars : Vars, (runTestsAux vars locals).2.1 = [] := by
  induction locals with
  | nil => intro vars; rfl
  | cons p rest ih =>
    intro vars
    obtain ⟨name, v⟩ := p
    cases v with
    | funcV f =>
      simp only [runTestsAux]
      by_cases hn : strStarts name "test_" = true
      · rw [if_pos hn]
        have hmem : (⟨name, f, PASS, 0, false, none⟩ : TestT) ∈ testsOf ((name, .funcV f) :: rest) := by
          simp only [testsOf, if_pos hn]
          exact List.mem_cons_self _ _
        have hhead := h _ hmem vars
        have hrest : ∀ t ∈ testsOf rest, ∀ v, errOf (t.callable v).2 = none := by
          intro t ht v
          refine h t ?_ v
          simp only [testsOf, if_pos hn]
          exact List.mem_cons_of_mem _ ht
        rcases hf : f vars with ⟨v1, r⟩
        cases r with
        | error m =>
          simp only [hf, errOf] at hhead
          cases hhead
        | ok val => simpa using ih hrest v1
      · rw [if_neg hn]
        refine ih ?_ vars
        intro t ht v
        refine h t ?_ v
        simpa only [testsOf, if_neg hn] using ht
    | noneV => exact ih (by simpa only [testsOf] using h) vars
    | boolV b => exact ih (by simpa only [testsOf] using h) vars
    | intV n => exact ih (by simpa only [testsOf] using h) vars
    | stringV s => exact ih (by simpa only [testsOf] using h) vars
    | listV es => exact ih (by simpa only [testsOf] using h) vars
    | protoV id => exact ih (by simpa only [testsOf] using h) vars

theorem runTestsAux_msgs_ne_nil (locals : List (String × SkyVal))
    (h : ∃ t ∈ testsOf locals, ∀ v, errOf (t.callable v).2 ≠ none) :
    ∀ vars : Vars, (runTestsAux vars locals).2.1 ≠ [] := by
  induction locals with
  | nil =>
    obtain ⟨t, ht, _⟩ := h
    simp [testsOf] at ht
  | cons p rest ih =>
    intro vars
    obtain ⟨name, v⟩ := p
    obtain ⟨t, ht, hfail⟩ := h
    cases v with
    | funcV f =>
      simp only [runTestsAux]
      by_cases hn : strStarts name "test_" = true
      · rw [if_pos hn]
        simp only [testsOf, if_pos hn] at ht
        rcases hf : f vars with ⟨v1, r⟩
        rcases List.mem_cons.mp ht with hth | hth
        · cases r with
          | error m => simp
          | ok val =>
            have := hfail vars
            rw [hth] at this
            simp only [hf, errOf] at this
            exact absurd rfl this
        · cases r with
          | error m => simp
          | ok val =>
            have := ih ⟨t, hth, hfail⟩ v1
            simpa using this
      · rw [if_neg hn]
        simp only [testsOf, if_neg hn] at ht
        exact ih ⟨t, ht, hfail⟩ vars
    | noneV => exact ih ⟨t, by simpa only [testsOf] using ht, hfail⟩ vars
    | boolV b => exact ih ⟨t, by simpa only [testsOf] using ht, hfail⟩ vars
    | intV n => exact ih ⟨t, by simpa only [testsOf] using ht, hfail⟩ vars
    | stringV s => exact ih ⟨t, by simpa only [testsOf] using ht, hfail⟩ vars
    | listV es => exact ih ⟨t, by simpa only [testsOf] using ht, hfail⟩ vars
    | protoV id => exact ih ⟨t, by simpa only [testsOf] using ht, hfail⟩ vars

end Exec

/- Claim theorems. -/

/-- C1: in every load session, the engine executes each distinct module path
at most once (the trace of ExecFile events has no duplicate path), and a
request whose resolved path already has a done cache entry returns exactly
the recorded symbol table and the recorded error, with no further
ContentStore or engine event. -/
theorem C1_exactly_once_execution :
    (∀ (env : Loader.Env) (fuel : Nat) (filename : String) (out : Loader.LOut),
        Loader.loadSession env fuel filename = some out →
        (Loader.execPaths out.2.1).Nodup)
    ∧ (∀ (env : Loader.Env) (fuel : Nat) (cache : Loader.Cache) (fromPath name mp : String)
        (g : Option Loader.SymTab) (e : Option Loader.Err),
        env.resolve name fromPath = .ok mp →
        Loader.cLook cache mp = some (.done g e) →
        Loader.loadM env (fuel + 1) cache fromPath name =
          some (cache, [.resolveCall name fromPath], g, e)) := by
  constructor
  · intro env fuel filename out h
    exact ((Loader.loadStep_inv env fuel).1 _ _ _ _ h).nodup
  · intro env fuel cache fromPath name mp g e hres hlook
    exact Loader.loadM_done_hit env fuel cache fromPath name mp g e hres hlook

/-- C1 witness: the diamond graph R imports a and b, both importing s, has a
duplicate-free execution trace, and a request hitting a done entry returns
the memoized pair. -/
theorem C1_exactly_once_execution_witness :
    (Loader.execPaths
      ((Loader.loadSession Loader.envDia 20 "R").getD ([], [], none, none)).2.1).Nodup
    ∧ Loader.loadM Loader.envX 4 Loader.cacheX "R" "x" =
        some (Loader.cacheX, [.resolveCall "x" "R"], none, some (.fetchFail "X")) := by
  constructor
  · exact C1_exactly_once_execution.1 Loader.envDia 20 "R" _ rfl
  · exact C1_exactly_once_execution.2 Loader.envX 3 Loader.cacheX "R" "x" "X" none
      (some (.fetchFail "X")) rfl rfl

/-- C2: an import that resolves to a path whose cache entry is the pending
sentinel returns the cycle error at once, leaving the cache untouched and
performing no ContentStore or engine call; and the three-module cycle
A to B to C to A terminates with an error whose root cause is the cycle
error. -/
theorem C2_cycle_detection :
    (∀ (env : Loader.Env) (fuel : Nat) (cache : Loader.Cache) (fromPath name mp : String),
        env.resolve name fromPath = .ok mp →
        Loader.cLook cache mp = some .pending →
        Loader.loadM env (fuel + 1) cache fromPath name =
          some (cache, [.resolveCall name fromPath], none, some .cycle))
    ∧ (∃ out : Loader.LOut,
        Loader.loadSession Loader.envABC 20 "A" = some out ∧
        out.2.2.2 = some (.loadWrap (.loadWrap (.loadWrap .cycle))) ∧
        Loader.Err.rootCause (.loadWrap (.loadWrap (.loadWrap .cycle))) = .cycle) := by
  constructor
  · intro env fuel cache fromPath name mp hres hlook
    exact Loader.loadM_pending_hit env fuel cache fromPath name mp hres hlook
  · exact ⟨_, rfl, rfl, rfl⟩

/-- C2 witness: with module path A pending in the cache, loading the name A
again returns the cycle error immediately. -/
theorem C2_cycle_detection_witness :
    Loader.loadM Loader.envABC 5 [("A", .pending)] "C" "A" =
      some ([("A", .pending)], [.resolveCall "A" "C"], none, some .cycle) :=
  C2_cycle_detection.1 Loader.envABC 4 [("A", .pending)] "C" "A" "A" rfl rfl

/-- C3 counterexample: a request for a module whose cache entry is a
memoized failure does return the same error without reading or executing,
but the trace of the request contains a Resolver invocation: the load
closure calls the Resolver on every request, before consulting the cache,
so the claim that the Resolver is not re-invoked is false. -/
theorem C3_counterexample_resolver_reinvoked :
    Loader.loadM Loader.envX 5 Loader.cacheX "R" "x" =
      some (Loader.cacheX, [.resolveCall "x" "R"], none, some (.fetchFail "X"))
    ∧ ([Loader.Event.resolveCall "x" "R"].any Loader.Event.isResolve) = true :=
  ⟨rfl, rfl⟩

/-- C3 amended: once a done entry with an error is recorded for a path,
every request resolving to that path returns the same memoized error
without re-invoking the ContentStore or the engine; the Resolver is still
invoked once per request to compute the path. -/
theorem C3_memoized_error_no_refetch :
    ∀ (env : Loader.Env) (fuel : Nat) (cache : Loader.Cache) (fromPath name mp : String)
      (g : Option Loader.SymTab) (err : Loader.Err),
      env.resolve name fromPath = .ok mp →
      Loader.cLook cache mp = some (.done g (some err)) →
      Loader.loadM env (fuel + 1) cache fromPath name =
        some (cache, [.resolveCall name fromPath], g, some err)
      ∧ ([Loader.Event.resolveCall name fromPath].all
          (fun e => !e.isRead && !e.isExec)) = true := by
  intro env fuel cache fromPath name mp g err hres hlook
  exact ⟨Loader.loadM_done_hit env fuel cache fromPath name mp g (some err) hres hlook, rfl⟩

/-- C3 witness: the memoized fetch failure of path X is returned unchanged
to a later request, with no read or execute event. -/
theorem C3_memoized_error_no_refetch_witness :
    Loader.loadM Loader.envX 7 Loader.cacheX "R" "x" =
      some (Loader.cacheX, [.resolveCall "x" "R"], none, some (.fetchFail "X"))
    ∧ ([Loader.Event.resolveCall "x" "R"].all
        (fun e => !e.isRead && !e.isExec)) = true :=
  C3_memoized_error_no_refetch Loader.envX 6 Loader.cacheX "R" "x" "X" none
    (.fetchFail "X") rfl rfl

/-- C4 counterexample: the error Config.Main returns for a sequence holding
a non-record element carries only the element kind, not its index: the
configuration whose main returns a valid record followed by a string at
index one produces exactly the same error value as the configuration whose
main returns a lone string at index zero, so the error cannot identify the
index. -/
theorem C4_counterexample_error_lacks_index :
    Exec.cfgIdx1.Main [] = .error (.notProto "string")
    ∧ Exec.cfgIdx0.Main [] = .error (.notProto "string")
    ∧ Exec.firstBadIdx [.protoV 0, .stringV "not a record"] = some 1
    ∧ Exec.firstBadIdx [.stringV "not a record"] = some 0
    ∧ Exec.cfgIdx1.Main [] = Exec.cfgIdx0.Main [] :=
  ⟨rfl, rfl, rfl, rfl, rfl⟩

/-- C4 amended: when main returns a sequence containing a non-record
element, Main returns an error identifying the kind of the first such
element; the error does not carry the element index. -/
theorem C4_error_identifies_kind :
    ∀ (c : Exec.ConfigM) (vars : Exec.Vars)
      (f : Exec.Vars → Exec.Vars × Except String Exec.SkyVal)
      (xs : List Exec.SkyVal) (x : Exec.SkyVal),
      Exec.lookupSD c.locals "main" = some (.funcV f) →
      (f vars).2 = .ok (.listV xs) →
      Exec.firstNonProto xs = some x →
      c.Main vars = .error (.notProto x.typeName) := by
  intro c vars f xs x hlook hret hfirst
  unfold Exec.ConfigM.Main
  rw [hlook]
  simp only [hret]
  exact Exec.bridge_error_first xs x hfirst

/-- C4 witness: a main returning a lone string yields the kind-only error. -/
theorem C4_error_identifies_kind_witness :
    Exec.cfgKind.Main [] = .error (.notProto "string") :=
  C4_error_identifies_kind Exec.cfgKind []
    (fun vars => (vars, .ok (.listV [.stringV "nope"])))
    [.stringV "nope"] (.stringV "nope") rfl rfl rfl

/-- C5 counterexample: in a batch run the tests share one ctx.vars
dictionary. Each of the two tests passes when run individually through
Test.Run with its fresh empty dictionary, yet the batch run fails because
the second test observes the key the first test stored into ctx.vars: a
mutation performed by one test is observable from another test of the same
run. -/
theorem C5_counterexample_mutation_observed :
    (Exec.testsOf Exec.localsShared).map (fun t => ((t.runT 0).1).err) = [none, none]
    ∧ Exec.runTestsM Exec.localsShared [] =
        (["Test did not exit cleanly (test_b): observed mutation from another test"],
         some "1 tests failed to exit cleanly") :=
  ⟨rfl, rfl⟩

/-- C5 amended: Test.Run always builds a fresh empty ctx.vars dictionary,
so its outcome depends only on the callable behaviour at the empty
dictionary; Config.RunTests builds a single ctx.vars dictionary per batch
(empty unless supplied through the options) which is shared by reference
among all tests of the run, so the second test of a batch receives the
dictionary contents produced by the first. -/
theorem C5_batch_vars_shared :
    (∀ (fa fb : Exec.Vars → Exec.Vars × Except String Exec.SkyVal) (v0 : Exec.Vars),
      Exec.runTestsAux v0 [("test_a", .funcV fa), ("test_b", .funcV fb)] =
        ((fb (fa v0).1).1,
         Exec.msgOf "test_a" (fa v0).2 ++ Exec.msgOf "test_b" (fb (fa v0).1).2,
         ["test_a", "test_b"]))
    ∧ (∀ (t : Exec.TestT) (clock : Nat),
        (t.runT clock).2 = Exec.errOf (t.callable []).2
        ∧ ((t.runT clock).1).err = Exec.errOf (t.callable []).2) := by
  constructor
  · intro fa fb v0
    have h1 : Exec.strStarts "test_a" "test_" = true := rfl
    have h2 : Exec.strStarts "test_b" "test_" = true := rfl
    rcases hfa : fa v0 with ⟨v1, r1⟩
    rcases hfb : fb v1 with ⟨v2, r2⟩
    cases r1 <;> cases r2 <;>
      simp [Exec.runTestsAux, Exec.msgOf, hfa, hfb, h1, h2]
  · intro t clock
    exact ⟨rfl, rfl⟩

/-- C6: whenever Config.Main returns without error, main was a callable
whose call succeeded, and the result is exactly the ordered sequence of
bridged records of the returned list elements (empty when main returned the
None sentinel); every output element is a bridged record. -/
theorem C6_main_output_bridged_in_order :
    ∀ (c : Exec.ConfigM) (vars : Exec.Vars) (msgs : List Nat),
      c.Main vars = .ok msgs →
      ∃ call ret, Exec.lookupSD c.locals "main" = some (.funcV call) ∧
        (call vars).2 = .ok ret ∧
        ((ret = .noneV ∧ msgs = []) ∨
         ∃ xs, ret = .listV xs ∧
           List.Forall₂ (fun x m => Exec.SkyVal.asProtoMessage x = some m) xs msgs) := by
  intro c vars msgs h
  unfold Exec.ConfigM.Main at h
  split at h
  · cases h
  · rename_i mainVal hlook
    split at h
    · rename_i call
      split at h
      · cases h
      · rename_i ret hcall
        refine ⟨call, ret, hlook, hcall, ?_⟩
        split at h
        · rename_i xs
          exact Or.inr ⟨xs, rfl, Exec.bridge_ok_forall₂ xs msgs h⟩
        · injection h with h2
          exact Or.inl ⟨rfl, h2.symm⟩
        · cases h
    · cases h

/-- C6 witness: a main returning two bridge records yields exactly those
records in order. -/
theorem C6_main_output_bridged_in_order_witness :
    ∃ call ret, Exec.lookupSD Exec.cfgTwoMsgs.locals "main" = some (.funcV call) ∧
      (call []).2 = .ok ret ∧
      ((ret = .noneV ∧ [7, 3] = ([] : List Nat)) ∨
       ∃ xs, ret = .listV xs ∧
         List.Forall₂ (fun x m => Exec.SkyVal.asProtoMessage x = some m) xs [7, 3]) :=
  C6_main_output_bridged_in_order Exec.cfgTwoMsgs [] [7, 3] rfl

/-- C7: for nested imports (non-empty fromPath) the default resolver is a
function of the name and the fixed root: on a platform whose separator is
not the slash it rejects any name containing that separator, and on the
slash platform it cleans the dot and dotdot segments of the name and
returns a path equal to the root followed by good segments only, so no name
escapes upward out of the root. -/
theorem C7_resolver_rejects_normalizes_confines :
    ∀ (rsegs : List PathModel.Seg) (name fromPath : List Char),
      (∀ s ∈ rsegs, PathModel.segGood s) → fromPath ≠ [] →
      (∀ sep : Char, sep ≠ '/' → sep ∈ name →
        PathModel.localResolve sep ('/' :: PathModel.joinSegs rsegs) name fromPath =
          .error (.invalidChar name))
      ∧ ∃ segs, (∀ s ∈ segs, PathModel.segGood s) ∧
          PathModel.localResolve '/' ('/' :: PathModel.joinSegs rsegs) name fromPath =
            .ok ('/' :: PathModel.joinSegs (rsegs ++ segs)) := by
  intro rsegs name fromPath hr hfp
  exact ⟨fun sep hsep hmem =>
      PathModel.localResolve_reject sep _ name fromPath hfp hsep hmem,
    PathModel.localResolve_confined rsegs name fromPath hr hfp⟩

/-- C7 witness: under root base, the name dotdot-etc-passwd resolves to a
path confined under the root. -/
theorem C7_resolver_rejects_normalizes_confines_witness :
    ∃ segs, (∀ s ∈ segs, PathModel.segGood s) ∧
      PathModel.localResolve '/' ('/' :: PathModel.joinSegs [['b', 'a', 's', 'e']])
          "../etc/passwd".toList "/base/r.sky".toList =
        .ok ('/' :: PathModel.joinSegs ([['b', 'a', 's', 'e']] ++ segs)) :=
  (C7_resolver_rejects_normalizes_confines [['b', 'a', 's', 'e']]
    "../etc/passwd".toList "/base/r.sky".toList (by decide) (by decide)).2

/-- C8: the batch mode calls every discovered test, whatever the earlier
outcomes (the call trace equals the discovered names); the aggregate error
is non-nil exactly when the failure message list is non-empty; a run of
tests that never fail returns no messages and no error, and a run
containing a test that always fails returns a non-empty message list and a
non-nil aggregate error. -/
theorem C8_batch_exhaustive_aggregate :
    ∀ (locals : List (String × Exec.SkyVal)) (vars : Exec.Vars),
      (Exec.runTestsAux vars locals).2.2 = (Exec.testsOf locals).map Exec.TestT.name
      ∧ ((Exec.runTestsM locals vars).2 ≠ none ↔ (Exec.runTestsM locals vars).1 ≠ [])
      ∧ ((∀ t ∈ Exec.testsOf locals, ∀ v, Exec.errOf (t.callable v).2 = none) →
          Exec.runTestsM locals vars = ([], none))
      ∧ ((∃ t ∈ Exec.testsOf locals, ∀ v, Exec.errOf (t.callable v).2 ≠ none) →
          (Exec.runTestsM locals vars).1 ≠ [] ∧ (Exec.runTestsM locals vars).2 ≠ none) := by
  intro locals vars
  refine ⟨Exec.runTestsAux_trace locals vars, ?_, ?_, ?_⟩
  · by_cases hm : (Exec.runTestsAux vars locals).2.1 = [] <;>
      simp [Exec.runTestsM, hm]
  · intro h
    have := Exec.runTestsAux_msgs_nil locals h vars
    simp [Exec.runTestsM, this]
  · intro h
    have := Exec.runTestsAux_msgs_ne_nil locals h vars
    simp [Exec.runTestsM, this]

/-- C8 witness: the all-passing batch returns no messages and no error, and
the batch holding an always-failing test returns a non-empty message list. -/
theorem C8_batch_exhaustive_aggregate_witness :
    Exec.runTestsM Exec.localsPass [] = ([], none)
    ∧ (Exec.runTestsM Exec.localsMixed []).1 ≠ [] := by
  constructor
  · apply (C8_batch_exhaustive_aggregate Exec.localsPass []).2.2.1
    intro t ht v
    have hred : Exec.testsOf Exec.localsPass = [Exec.tW] := rfl
    rw [hred] at ht
    rw [List.mem_singleton.mp ht]
    rfl
  · refine ((C8_batch_exhaustive_aggregate Exec.localsMixed []).2.2.2 ?_).1
    refine ⟨⟨"test_q", Exec.fFail, Exec.PASS, 0, false, none⟩, ?_, fun v => by
      simp [Exec.fFail, Exec.errOf]⟩
    have hred : Exec.testsOf Exec.localsMixed =
        [Exec.tW, ⟨"test_q", Exec.fFail, Exec.PASS, 0, false, none⟩] := rfl
    rw [hred]
    exact List.mem_cons_of_mem _ (List.mem_cons_self _ _)

/-- C9: the outcome, duration and error accessors of a test return none
(modelling the Go panic) before Run completed, in particular on every test
produced by Config.Tests; once Run has completed, the completion flag is
set and all three accessors return the recorded outcome, the recorded
duration and the recorded error. -/
theorem C9_accessor_lifecycle :
    ∀ (locals : List (String × Exec.SkyVal)) (t : Exec.TestT) (clock : Nat),
      (∀ t0 ∈ Exec.testsOf locals,
        t0.ResultA = none ∧ t0.DurationA = none ∧ t0.ErrorA = none)
      ∧ (t.complete = false →
          t.ResultA = none ∧ t.DurationA = none ∧ t.ErrorA = none)
      ∧ (((t.runT clock).1).complete = true
         ∧ ((t.runT clock).1).ResultA = some ((t.runT clock).1).result
         ∧ ((t.runT clock).1).DurationA = some clock
         ∧ ((t.runT clock).1).ErrorA = some ((t.runT clock).1).err) := by
  intro locals t clock
  refine ⟨?_, ?_, rfl, ?_, ?_, ?_⟩
  · intro t0 ht0
    have hc := Exec.testsOf_not_complete locals t0 ht0
    simp [Exec.TestT.ResultA, Exec.TestT.DurationA, Exec.TestT.ErrorA, hc]
  · intro hc
    simp [Exec.TestT.ResultA, Exec.TestT.DurationA, Exec.TestT.ErrorA, hc]
  · rfl
  · rfl
  · rfl

/-- C9 witness: the accessors of a discovered, not yet run test return
none. -/
theorem C9_accessor_lifecycle_witness :
    Exec.tW.ResultA = none ∧ Exec.tW.DurationA = none ∧ Exec.tW.ErrorA = none :=
  (C9_accessor_lifecycle Exec.localsPass Exec.tW 5).2.1 rfl

/-- C10: with an empty fromPath (the root module of Load) the default
resolver returns the name unchanged for every name and every separator,
so none of the nested-import checks or normalizations applies to the root
module name. -/
theorem C10_root_name_unchanged :
    ∀ (sep : Char) (root name : List Char),
      PathModel.localResolve sep root name [] = .ok name := by
  intro sep root name
  simp [PathModel.localResolve]

end Skycfg
